import Mathlib

/-
Shallow embedding of the derived-conformance synthesizer for the Encodable and
Decodable protocols (lib/Sema/DerivedConformanceCodable.cpp). Each definition
below corresponds to a function or data shape of that source file; pointer-based
AST nodes are modelled by small inductive types, lookupDirect environments by
association lists, and the conformance oracle (TypeChecker::conformsToProtocol
for the active protocol) by an explicit function argument. Property-wrapper
backing resolution is elided (it is the identity when no wrappers are present).
-/

namespace DerivedCodable

/-- A protocol kind the synthesizer can derive (KnownProtocolKind restricted to
the two serialization protocols). -/
inductive ProtocolKind
  | encodable
  | decodable
deriving DecidableEq

/-- Interface types, as far as the synthesizer inspects them: a named nominal
type, or one optional wrapping. -/
inductive Ty
  | named (n : String)
  | optional (t : Ty)
deriving DecidableEq

/-- Models Type::getOptionalObjectType: the payload type of a top-level
optional, none otherwise. -/
def Ty.optionalObjectType : Ty → Option Ty
  | Ty.optional t => some t
  | Ty.named _ => none

/-- A stored property of a record or class, with the flags the synthesizer
reads. The name is the coding name (getVarNameForCoding). The field
defaultInitializable models pbd and pbd->isDefaultInitializable() together. -/
structure StoredVar where
  name : String
  ty : Ty
  userAccessible : Bool
  isStatic : Bool
  isLet : Bool
  parentInitialized : Bool
  defaultInitializable : Bool
deriving DecidableEq

/-- An associated-value parameter of a union case: argument label (none for an
unnamed positional parameter), type, default-expression flag, accessibility. -/
structure Param where
  label : Option String
  ty : Ty
  hasDefaultExpr : Bool
  userAccessible : Bool
deriving DecidableEq

/-- getVarNameForCoding on a case parameter: its label (empty when unnamed). -/
def Param.nameForCoding (p : Param) : String := p.label.getD ""

/-- A case of a tagged union; params is none when the case carries no
associated values. -/
structure UnionCase where
  name : String
  params : Option (List Param)
deriving DecidableEq

/-- EnumElementDecl::hasAnyUnnamedParameters. -/
def UnionCase.hasAnyUnnamedParameters (c : UnionCase) : Bool :=
  match c.params with
  | none => false
  | some ps => ps.any (fun p => p.label.isNone)

/-- Identifiers fed to lookupDirect on the target: the reserved name
CodingKeys, the mangled per-case name (combineIdentifiers produces the string
CodingKeys_<caseName>; concatenation with the fixed separator is injective, so
the mangled names are modelled by a dedicated constructor), or another name. -/
inductive Ident
  | codingKeys
  | caseKeys (caseName : String)
  | raw (s : String)
deriving DecidableEq

/-- A coding-key enum declaration: its case names, whether it is
compiler-implicit, and whether it conforms to the CodingKey protocol. -/
structure KeyEnum where
  cases : List String
  isImplicit : Bool
  conformsCodingKey : Bool
deriving DecidableEq

/-- The declaration a reserved name can resolve to on the target: a key enum,
or some other (non-enum) type declaration with its CodingKey conformance flag.
Typealias resolution is folded into the constructors. -/
inductive NamedDecl
  | keyEnum (e : KeyEnum)
  | nonEnumType (conformsCodingKey : Bool)
deriving DecidableEq

/-- Diagnostics the classifier, validators and gate can emit. -/
inductive Diag
  | extraneousCodingKey (key : String)
  | nonConformingProperty (name : String)
  | nonDecodedProperty (name : String)
  | codingKeysNotAnEnum
  | codingKeysDoesNotConform
  | noSuperInitHere
  | superInitNotDesignated
  | inaccessibleSuperInit
  | superInitIsFailable
deriving DecidableEq

/-- CodingKeysClassification from the source. -/
inductive Classification
  | invalid
  | needsSynthesizedCodingKeys
  | valid
deriving DecidableEq

/-- lookupDirect over the member declarations of the target, returning the
first declaration with the requested name. -/
def lookupDirect : List (Ident × NamedDecl) → Ident → Option NamedDecl
  | [], _ => none
  | (k, v) :: rest, i => if k = i then some v else lookupDirect rest i

/-- lookupEvaluatedCodingKeysEnum: the named declaration, seen through a
typealias, when it is an enum. -/
def lookupEvaluatedCodingKeysEnum (decls : List (Ident × NamedDecl)) (i : Ident) :
    Option KeyEnum :=
  match lookupDirect decls i with
  | some (NamedDecl.keyEnum e) => some e
  | _ => none

/-- Boolean membership for case-name lists (lookupEnumCase on a key enum). -/
def strContains : List String → String → Bool
  | [], _ => false
  | s :: rest, x => if s = x then true else strContains rest x

/-- Insertion for the llvm::SmallMapVector properties map: overwrite in place
when the key exists, append otherwise. -/
def alistInsert {α : Type} : List (String × α) → String → α → List (String × α)
  | [], k, v => [(k, v)]
  | (k', v') :: rest, k, v =>
      if k' = k then (k', v) :: rest else (k', v') :: alistInsert rest k v

/-- Lookup in the properties map. -/
def alistFind {α : Type} : List (String × α) → String → Option α
  | [], _ => none
  | (k', v') :: rest, k => if k' = k then some v' else alistFind rest k

/-- Erasure of a validated entry from the properties map. -/
def alistErase {α : Type} : List (String × α) → String → List (String × α)
  | [], _ => []
  | (k', v') :: rest, k => if k' = k then rest else (k', v') :: alistErase rest k

/-- The shared per-case validation loop of validateCodingKeysEnum and
validateCaseCodingKeysEnum: for each key-enum case, find the matching member;
diagnose an extraneous key or a non-conforming member; erase validated
members from the working map. Returns (still valid, diagnostics, leftover). -/
def validateKeysLoop {α : Type} (conforms : Ty → Bool) (tyOf : α → Ty) :
    List String → List (String × α) → Bool → List Diag →
    Bool × List Diag × List (String × α)
  | [], m, valid, ds => (valid, ds, m)
  | k :: rest, m, valid, ds =>
    match alistFind m k with
    | none =>
        validateKeysLoop conforms tyOf rest m false (ds ++ [Diag.extraneousCodingKey k])
    | some v =>
        if conforms (tyOf v) then
          validateKeysLoop conforms tyOf rest (alistErase m k) valid ds
        else
          validateKeysLoop conforms tyOf rest m false (ds ++ [Diag.nonConformingProperty k])

/-- The Decodable leftover loop: each member the key enum did not cover must
carry a default, otherwise it is diagnosed as a non-decoded property. -/
def leftoverOk {α : Type} (hasDefault : α → Bool) :
    List (String × α) → Bool → List Diag → Bool × List Diag
  | [], valid, ds => (valid, ds)
  | (k, v) :: rest, valid, ds =>
    if hasDefault v then leftoverOk hasDefault rest valid ds
    else leftoverOk hasDefault rest false (ds ++ [Diag.nonDecodedProperty k])

/-- The properties map of validateCodingKeysEnum: user-accessible stored
properties keyed by coding name, in declaration order. -/
def insertProps (acc : List (String × StoredVar)) : List StoredVar → List (String × StoredVar)
  | [] => acc
  | v :: rest =>
      insertProps (if v.userAccessible then alistInsert acc v.name v else acc) rest

def buildPropertiesMap (props : List StoredVar) : List (String × StoredVar) :=
  insertProps [] props

/-- validateCodingKeysEnum: cross-check a key enum against the stored
properties of a record or class; for Decodable, members the enum omits must be
default-initializable or parent-initialized. -/
def validateCodingKeysEnum (isDecodable : Bool) (conforms : Ty → Bool)
    (props : List StoredVar) (keyCases : List String) : Bool × List Diag :=
  let t := validateKeysLoop conforms StoredVar.ty keyCases (buildPropertiesMap props) true []
  if t.1 = false then (false, t.2.1)
  else if isDecodable then
    leftoverOk (fun v => v.defaultInitializable || v.parentInitialized) t.2.2 t.1 t.2.1
  else (t.1, t.2.1)

/-- The properties map of validateCaseCodingKeysEnum: the user-accessible
parameters of one union case, keyed by coding name; empty when the case has no
associated values. -/
def insertParams (acc : List (String × Param)) : List Param → List (String × Param)
  | [] => acc
  | p :: rest =>
      insertParams (if p.userAccessible then alistInsert acc p.nameForCoding p else acc) rest

/-- validateCaseCodingKeysEnum: cross-check a per-case key enum against the
associated-value parameters of the union case; for Decodable, parameters the
enum omits must carry a default expression. -/
def validateCaseCodingKeysEnum (isDecodable : Bool) (conforms : Ty → Bool)
    (c : UnionCase) (keyCases : List String) : Bool × List Diag :=
  let t := validateKeysLoop conforms Param.ty keyCases (insertParams [] (c.params.getD [])) true []
  if t.1 = false then (false, t.2.1)
  else if isDecodable then
    leftoverOk (fun p => p.hasDefaultExpr) t.2.2 t.1 t.2.1
  else (t.1, t.2.1)

/-- validateCodingKeysProtocolConformance: the declaration must be a type, must
conform to CodingKey, and must be an enum, in this diagnostic order. -/
def validateCodingKeysProtocolConformance (d : NamedDecl) : Option KeyEnum × List Diag :=
  match d with
  | NamedDecl.keyEnum e =>
      if e.conformsCodingKey then (some e, [])
      else (none, [Diag.codingKeysDoesNotConform])
  | NamedDecl.nonEnumType conf =>
      if conf then (none, [Diag.codingKeysNotAnEnum])
      else (none, [Diag.codingKeysDoesNotConform])

/-- A superclass initializer candidate, as seen by the Decodable pre-check. -/
structure Initializer where
  isDesignated : Bool
  accessible : Bool
  isFailable : Bool
  throws : Bool
deriving DecidableEq

/-- The superclass a class target inherits from: its conformances to the two
protocols and the TypeChecker::lookupMember result for the initializer the
synthesized init(from:) would have to chain to. -/
structure SuperDetail where
  conformsEncodable : Bool
  conformsDecodable : Bool
  ctorLookup : List Initializer
deriving DecidableEq

/-- How the target looks as a class: not a class at all, or a class with its
final flag and optional superclass. -/
inductive TargetClassView
  | notClass
  | cls (isFinal : Bool) (superclass : Option SuperDetail)
deriving DecidableEq

/-- superclassConformsTo: whether the target is a class whose superclass
conforms to the given protocol (false for a null class or no superclass). -/
def superclassConformsTo (v : TargetClassView) (k : ProtocolKind) : Bool :=
  match v with
  | TargetClassView.notClass => false
  | TargetClassView.cls _ none => false
  | TargetClassView.cls _ (some s) =>
      match k with
      | ProtocolKind.encodable => s.conformsEncodable
      | ProtocolKind.decodable => s.conformsDecodable

/-- The superclass-initializer pre-check of canSynthesize for Decodable
classes: an empty lookup, a non-designated, inaccessible, or failable
initializer each emit a dedicated diagnostic; an ambiguous lookup (more than
one result) bails without one. -/
def checkSuperclassInit : List Initializer → Bool × List Diag
  | [] => (false, [Diag.noSuperInitHere])
  | [c] =>
      if c.isDesignated = false then (false, [Diag.superInitNotDesignated])
      else if c.accessible = false then (false, [Diag.inaccessibleSuperInit])
      else if c.isFailable then (false, [Diag.superInitIsFailable])
      else (true, [])
  | _ :: _ :: _ => (false, [])

/-- A tagged-union target: its cases and the member declarations visible to
lookupDirect. -/
structure EnumTarget where
  cases : List UnionCase
  decls : List (Ident × NamedDecl)
deriving DecidableEq

/-- A record or class target: stored properties, class view, formal access
(abstracted to a number), and the member declarations visible to
lookupDirect. -/
structure RecordTarget where
  props : List StoredVar
  classView : TargetClassView
  access : Nat
  decls : List (Ident × NamedDecl)
deriving DecidableEq

/-- The nominal target of a derivation request. -/
inductive Nominal
  | record (r : RecordTarget)
  | union (u : EnumTarget)
deriving DecidableEq

def Nominal.decls : Nominal → List (Ident × NamedDecl)
  | Nominal.record r => r.decls
  | Nominal.union u => u.decls

/-- The per-case classification loop of classifyCodingKeys for tagged unions:
look up CodingKeys_<case> for every union case; absence flips needsSynthesis,
an ill-formed or invalid per-case enum returns Invalid at once. The outer key
enum itself is not consulted here. -/
def classifyUnionLoop (isDecodable : Bool) (conforms : Ty → Bool)
    (decls : List (Ident × NamedDecl)) :
    List UnionCase → Bool → List Diag → Classification × List Diag
  | [], needs, acc =>
      ((if needs then Classification.needsSynthesizedCodingKeys else Classification.valid), acc)
  | c :: rest, needs, acc =>
    match lookupDirect decls (Ident.caseKeys c.name) with
    | none => classifyUnionLoop isDecodable conforms decls rest true acc
    | some d =>
      match validateCodingKeysProtocolConformance d with
      | (none, ds) => (Classification.invalid, acc ++ ds)
      | (some e, ds) =>
        let t := validateCaseCodingKeysEnum isDecodable conforms c e.cases
        if t.1 then classifyUnionLoop isDecodable conforms decls rest needs (acc ++ ds ++ t.2)
        else (Classification.invalid, acc ++ ds ++ t.2)

/-- classifyCodingKeys: find a user-declared CodingKeys entity; validate its
protocol conformance; for tagged unions additionally classify the per-case
enums; for records run the Validator on the outer enum. -/
def classifyCodingKeys (isDecodable : Bool) (conforms : Ty → Bool) (n : Nominal) :
    Classification × List Diag :=
  match lookupDirect n.decls Ident.codingKeys with
  | none =>
    match n with
    | Nominal.union u => classifyUnionLoop isDecodable conforms u.decls u.cases true []
    | Nominal.record _ => (Classification.needsSynthesizedCodingKeys, [])
  | some d =>
    match validateCodingKeysProtocolConformance d with
    | (none, ds) => (Classification.invalid, ds)
    | (some e, ds) =>
      match n with
      | Nominal.union u => classifyUnionLoop isDecodable conforms u.decls u.cases false ds
      | Nominal.record r =>
        let t := validateCodingKeysEnum isDecodable conforms r.props e.cases
        ((if t.1 then Classification.valid else Classification.invalid), ds ++ t.2)

/-- The per-parameter case-addition closure of synthesizeCodingKeysEnum_enum:
skip non-user-accessible parameters, add a case for conforming ones, flip
allConform otherwise. The C++ update allConform = allConform && add(...)
short-circuits, so once allConform is false no further case is added. -/
def caseKeyEnumCases (conforms : Ty → Bool) :
    List String × Bool → List Param → List String × Bool
  | acc, [] => acc
  | acc, p :: rest =>
      caseKeyEnumCases conforms
        (if acc.2 then
          (if p.userAccessible = false then acc
           else if conforms p.ty then (acc.1 ++ [p.nameForCoding], acc.2)
           else (acc.1, false))
         else acc) rest

/-- The outer-enum phase of synthesizeCodingKeysEnum_enum: reuse a CodingKeys
enum when one resolves, otherwise create an implicit one with a case per union
case and install it. Returns the updated declarations and the outer cases. -/
def synthOuter (t : EnumTarget) : List (Ident × NamedDecl) × List String :=
  match lookupEvaluatedCodingKeysEnum t.decls Ident.codingKeys with
  | some e => (t.decls, e.cases)
  | none =>
      (t.decls ++ [(Ident.codingKeys,
          NamedDecl.keyEnum
            { cases := t.cases.map UnionCase.name, isImplicit := true, conformsCodingKey := true })],
       t.cases.map UnionCase.name)

/-- One iteration of the per-case loop of synthesizeCodingKeysEnum_enum: skip
a case absent from the outer enum, already declared, or with any unnamed
parameter; otherwise install a nested CodingKeys_<case> enum. -/
def synthStep (conforms : Ty → Bool) (outerCases : List String)
    (st : List (Ident × NamedDecl) × Bool) (elt : UnionCase) :
    List (Ident × NamedDecl) × Bool :=
  if strContains outerCases elt.name = false then st
  else if (lookupDirect st.1 (Ident.caseKeys elt.name)).isSome then st
  else if elt.hasAnyUnnamedParameters then st
  else
    let p := caseKeyEnumCases conforms (([], st.2) : List String × Bool) (elt.params.getD [])
    (st.1 ++ [(Ident.caseKeys elt.name,
        NamedDecl.keyEnum { cases := p.1, isImplicit := true, conformsCodingKey := true })],
     p.2)

/-- synthesizeCodingKeysEnum_enum: install the outer key enum when missing and
a nested per-case key enum for each eligible case; returns the updated target
and the allConform flag. -/
def synthesizeCodingKeysEnum_enum (conforms : Ty → Bool) (t : EnumTarget) :
    EnumTarget × Bool :=
  let d1 := synthOuter t
  let st := List.foldl (synthStep conforms d1.2) (d1.1, true) t.cases
  ({ cases := t.cases, decls := st.1 }, st.2)

/-- The property fold of the record-path synthesizeCodingKeysEnum: add a case
per user-accessible conforming property; a non-conforming property flips
allConform but the loop keeps running (no short-circuit on this path). -/
def structKeyEnumCases (conforms : Ty → Bool) :
    List String × Bool → List StoredVar → List String × Bool
  | acc, [] => acc
  | acc, v :: rest =>
      structKeyEnumCases conforms
        (if v.userAccessible = false then acc
         else if conforms v.ty then (acc.1 ++ [v.name], acc.2)
         else (acc.1, false)) rest

/-- synthesizeCodingKeysEnum, record/class path: build the implicit enum,
prepending the reserved case super when the superclass conforms to either
protocol; on any non-conforming property nothing is installed. -/
def synthesizeCodingKeysEnumStruct (conforms : Ty → Bool) (v : TargetClassView)
    (props : List StoredVar) : Option KeyEnum :=
  let su : List String :=
    if superclassConformsTo v ProtocolKind.encodable
        || superclassConformsTo v ProtocolKind.decodable then ["super"] else []
  let p := structKeyEnumCases conforms ([], true) props
  if p.2 then some { cases := su ++ p.1, isImplicit := true, conformsCodingKey := true }
  else none

/-- canSynthesize: the superclass pre-check for Decodable classes, followed by
classification, followed (on NeedsSynthesis) by key-enum synthesis. -/
def canSynthesize (isDecodable : Bool) (conforms : Ty → Bool) (n : Nominal) :
    Bool × List Diag :=
  let pre : Bool × List Diag :=
    match n, isDecodable with
    | Nominal.record r, true =>
      match r.classView with
      | TargetClassView.cls _ (some s) => checkSuperclassInit s.ctorLookup
      | _ => (true, [])
    | _, _ => (true, [])
  if pre.1 then
    let c := classifyCodingKeys isDecodable conforms n
    match c.1 with
    | Classification.invalid => (false, pre.2 ++ c.2)
    | Classification.valid => (true, pre.2 ++ c.2)
    | Classification.needsSynthesizedCodingKeys =>
      match n with
      | Nominal.record r =>
          ((synthesizeCodingKeysEnumStruct conforms r.classView r.props).isSome, pre.2 ++ c.2)
      | Nominal.union u =>
          ((synthesizeCodingKeysEnum_enum conforms u).2, pre.2 ++ c.2)
  else (false, pre.2)

/-- The declaration-level attributes of the synthesized init(from:) witness. -/
structure InitDeclAttrs where
  throws : Bool
  failable : Bool
  access : Nat
  requiredAttr : Bool
deriving DecidableEq

/-- The declaration-level attributes of the synthesized encode(to:) witness. -/
structure EncodeDeclAttrs where
  throws : Bool
  access : Nat
  overrideAttr : Bool
deriving DecidableEq

/-- deriveDecodable_init, declaration part: a throwing, non-failable
constructor copying the formal access of the target, marked required for
non-final classes. -/
def deriveDecodable_init (access : Nat) (v : TargetClassView) : InitDeclAttrs :=
  { throws := true, failable := false, access := access,
    requiredAttr :=
      match v with
      | TargetClassView.cls f _ => !f
      | TargetClassView.notClass => false }

/-- deriveEncodable_encode, declaration part: a throwing method copying the
formal access of the target, marked override when the superclass conforms to
Encodable. -/
def deriveEncodable_encode (access : Nat) (v : TargetClassView) : EncodeDeclAttrs :=
  { throws := true, access := access,
    overrideAttr := superclassConformsTo v ProtocolKind.encodable }

/-- DerivedConformance::deriveDecodable for a record or class target: the gate
either installs the witness or returns none with the transaction committed. -/
def deriveDecodable (conforms : Ty → Bool) (r : RecordTarget) : Option InitDeclAttrs :=
  if (canSynthesize true conforms (Nominal.record r)).1 then
    some (deriveDecodable_init r.access r.classView)
  else none

/-- lookupVarDeclForCodingKeysCase: the first non-static property with the
name of the coding key, together with the type to decode (the optional payload
for one-level optionals) and the if-present flag. -/
def lookupVarDeclForCodingKeysCase : List StoredVar → String → Option (StoredVar × Ty × Bool)
  | [], _ => none
  | v :: rest, elt =>
    if v.name = elt then
      if v.isStatic then lookupVarDeclForCodingKeysCase rest elt
      else
        match v.ty.optionalObjectType with
        | some objTy => some (v, objTy, true)
        | none => some (v, v.ty, false)
    else lookupVarDeclForCodingKeysCase rest elt

/-- A statement of the synthesized record/class encode(to:) body. -/
inductive EStmt
  | containerBinding
  | memberEncode (ifPresent : Bool) (member : String) (key : String)
  | superEncodeToSubEncoder
deriving DecidableEq

/-- A statement of the synthesized record/class init(from:) body. -/
inductive DStmt
  | containerBinding
  | memberDecode (ifPresent : Bool) (member : String) (metaTy : Ty) (key : String)
  | superInitFromSubDecoder
  | superInitPlainCall (isTry : Bool)
deriving DecidableEq

/-- Sequencing of Option-valued per-key emission over the key list (the C++
loop bodies all succeed or the body builder would have crashed earlier). -/
def optionTraverse {α β : Type} (f : α → Option β) : List α → Option (List β)
  | [] => some []
  | a :: l =>
    match f a, optionTraverse f l with
    | some b, some bs => some (b :: bs)
    | _, _ => none

/-- The per-key emission of the record/class encode body. -/
def encodeStmtForKey (props : List StoredVar) (elt : String) : Option EStmt :=
  match lookupVarDeclForCodingKeysCase props elt with
  | none => none
  | some (v, _, useIfPresent) => some (EStmt.memberEncode useIfPresent v.name elt)

/-- The per-key emission of the record/class decode body; an immutable member
with a parent-initialized value is skipped (inner none). -/
def decodeStmtForKey (props : List StoredVar) (elt : String) : Option (Option DStmt) :=
  match lookupVarDeclForCodingKeysCase props elt with
  | none => none
  | some (v, ty, useIfPresent) =>
    if v.isLet && v.parentInitialized then some none
    else some (some (DStmt.memberDecode useIfPresent v.name ty elt))

/-- deriveBodyEncodable_encode: the unconditional container binding, one
encode per key-enum case, then the super chain when the superclass conforms to
Encodable. -/
def deriveBodyEncodable_encode (props : List StoredVar) (keys : List String)
    (v : TargetClassView) : Option (List EStmt) :=
  match optionTraverse (encodeStmtForKey props) keys with
  | none => none
  | some ms =>
      some (EStmt.containerBinding :: ms
        ++ (if superclassConformsTo v ProtocolKind.encodable
            then [EStmt.superEncodeToSubEncoder] else []))

/-- The superclass chaining tail of deriveBodyDecodable_init: chain to
super.init(from:) for a Decodable superclass, else to the zero-argument
designated initializer (wrapped in try iff it throws). -/
def superDecodeTail (v : TargetClassView) : List DStmt :=
  match v with
  | TargetClassView.notClass => []
  | TargetClassView.cls _ none => []
  | TargetClassView.cls _ (some s) =>
      if s.conformsDecodable then [DStmt.superInitFromSubDecoder]
      else [DStmt.superInitPlainCall
              (match s.ctorLookup with
               | c :: _ => c.throws
               | [] => false)]

/-- deriveBodyDecodable_init: the container binding and per-key decodes are
emitted only when the key enum has cases; the superclass chain follows. -/
def deriveBodyDecodable_init (props : List StoredVar) (keys : List String)
    (v : TargetClassView) : Option (List DStmt) :=
  match optionTraverse (decodeStmtForKey props) keys with
  | none => none
  | some ms =>
      some ((if keys.isEmpty then []
             else DStmt.containerBinding :: ms.filterMap (fun x => x))
        ++ superDecodeTail v)

/-- A field of the keyed per-case decode in the tagged-union decoder: either a
keyed decode of the parameter type, or the substituted default expression. -/
inductive DecodedField
  | keyed (label : String) (ty : Ty)
  | defaulted (label : String)
deriving DecidableEq

/-- The body of one arm of the tagged-union decode switch. -/
inductive EnumArmBody
  | assignCase (caseName : String)
  | unkeyedAssign (caseName : String) (tys : List Ty)
  | keyedAssign (caseName : String) (fields : List DecodedField)
deriving DecidableEq

/-- The statement of the default arm of the tagged-union decode switch: the
framework decoding-error construction the comment promises, or the fatalError
placeholder the code emits. -/
inductive DefaultStmt
  | fatalErrorCall (msg : String)
  | throwValueNotFound
deriving DecidableEq

/-- An arm of the switch over container.allKeys.first. -/
inductive SwitchArm
  | caseArm (key : String) (body : EnumArmBody)
  | defaultArm (d : DefaultStmt)
deriving DecidableEq

/-- A statement of the synthesized tagged-union init(from:) body. -/
inductive EnumInitStmt
  | containerBinding
  | switchOnAllKeysFirst (arms : List SwitchArm)
deriving DecidableEq

/-- The keyed-decode field list for an all-named case: parameters present in
the per-case enum decode by key, absent ones substitute their default
expression (asserted to exist). -/
def decodedFieldsForParams (caseKeyCases : List String) :
    List Param → Option (List DecodedField)
  | [] => some []
  | p :: rest =>
    match
      (if strContains caseKeyCases p.nameForCoding then
        some (DecodedField.keyed p.nameForCoding p.ty)
       else if p.hasDefaultExpr then some (DecodedField.defaulted p.nameForCoding)
       else none),
      decodedFieldsForParams caseKeyCases rest with
    | some f, some fs => some (f :: fs)
    | _, _ => none

/-- The case arms of the tagged-union decode switch: one arm per union case
present in the outer key enum, with the container kind picked from the
parameter shape. -/
def buildDecodeArms (decls : List (Ident × NamedDecl)) (outerCases : List String) :
    List UnionCase → Option (List SwitchArm)
  | [] => some []
  | c :: rest =>
    if strContains outerCases c.name = false then buildDecodeArms decls outerCases rest
    else
      match
        (match c.params with
         | none => some (EnumArmBody.assignCase c.name)
         | some ps =>
           if c.hasAnyUnnamedParameters then
             some (EnumArmBody.unkeyedAssign c.name (ps.map Param.ty))
           else
             match lookupEvaluatedCodingKeysEnum decls (Ident.caseKeys c.name) with
             | none => none
             | some ce =>
               (decodedFieldsForParams ce.cases ps).map (EnumArmBody.keyedAssign c.name)),
        buildDecodeArms decls outerCases rest with
      | some b, some arms => some (SwitchArm.caseArm c.name b :: arms)
      | _, _ => none

/-- deriveBodyDecodable_enum_init: empty when the outer key enum has no cases;
otherwise the container binding and the switch over container.allKeys.first,
whose final arm is the default arm with the fatalError placeholder. -/
def deriveBodyDecodable_enum_init (u : EnumTarget) : Option (List EnumInitStmt) :=
  match lookupEvaluatedCodingKeysEnum u.decls Ident.codingKeys with
  | none => none
  | some outer =>
    if outer.cases.isEmpty then some []
    else
      match buildDecodeArms u.decls outer.cases u.cases with
      | none => none
      | some arms =>
          some [EnumInitStmt.containerBinding,
                EnumInitStmt.switchOnAllKeysFirst
                  (arms ++ [SwitchArm.defaultArm (DefaultStmt.fatalErrorCall "foo")])]

/-- Helper: the last element of a list with a singleton appended. -/
theorem lastOfAppendSingle {α : Type} (l : List α) (a : α) :
    (l ++ [a]).getLast? = some a := by
  induction l with
  | nil => rfl
  | cons b t ih =>
    cases t with
    | nil => rfl
    | cons c t' =>
      rw [List.cons_append] at ih ⊢
      rw [List.cons_append, List.getLast?_cons_cons]
      exact ih

/-- Helper: a successful traversal carries every element of the input to an
element of the output. -/
theorem optionTraverseMem {α β : Type} (f : α → Option β) :
    ∀ (l : List α) (ms : List β), optionTraverse f l = some ms →
      ∀ x, x ∈ l → ∃ y, f x = some y ∧ y ∈ ms := by
  intro l
  induction l with
  | nil => intro ms _ x hx; cases hx
  | cons a t ih =>
    intro ms h x hx
    unfold optionTraverse at h
    cases hfa : f a with
    | none => rw [hfa] at h; simp at h
    | some b =>
      cases ht : optionTraverse f t with
      | none => rw [hfa, ht] at h; simp at h
      | some bs =>
        rw [hfa, ht] at h
        simp only [Option.some.injEq] at h
        subst h
        cases hx with
        | head => exact ⟨b, hfa, List.mem_cons_self _ _⟩
        | tail _ hx' =>
          obtain ⟨y, hy, hmem⟩ := ih bs ht x hx'
          exact ⟨y, hy, List.mem_cons_of_mem _ hmem⟩

/-- C10 (confirmed): the synthesized init(from:) witness is always throwing
and non-failable, copies the formal access of the target, and carries the
implicit required attribute exactly for non-final class targets; the
synthesized encode(to:) carries the implicit override attribute exactly when
the target is a class whose superclass conforms to Encodable. -/
theorem C10_decl_attributes (acc : Nat) (cv : TargetClassView) :
    (deriveDecodable_init acc cv).throws = true
    ∧ (deriveDecodable_init acc cv).failable = false
    ∧ (deriveDecodable_init acc cv).access = acc
    ∧ ((deriveDecodable_init acc cv).requiredAttr = true ↔
        ∃ sup, cv = TargetClassView.cls false sup)
    ∧ ((deriveEncodable_encode acc cv).overrideAttr = true ↔
        ∃ f s, cv = TargetClassView.cls f (some s) ∧ s.conformsEncodable = true) := by
  refine ⟨rfl, rfl, rfl, ?_, ?_⟩
  · cases cv with
    | notClass => simp [deriveDecodable_init]
    | cls f sup => cases f <;> simp [deriveDecodable_init]
  · cases cv with
    | notClass => simp [deriveEncodable_encode, superclassConformsTo]
    | cls f sup =>
      cases sup with
      | none => simp [deriveEncodable_encode, superclassConformsTo]
      | some s =>
        simp only [deriveEncodable_encode, superclassConformsTo]
        constructor
        · intro h; exact ⟨f, s, rfl, h⟩
        · intro h
          obtain ⟨f', s', heq, hc⟩ := h
          injection heq with h1 h2
          injection h2 with h3
          rw [h3]
          exact hc

/-- C7 (confirmed): the synthesized encode body always begins with the
container binding, even for an empty key enum, while the synthesized decode
body omits the container prelude entirely when the key enum has no cases. -/
theorem C7_container_prelude (props : List StoredVar) (keys : List String)
    (cv : TargetClassView) :
    (∀ es, deriveBodyEncodable_encode props keys cv = some es →
        es.head? = some EStmt.containerBinding)
    ∧ (∀ ds, deriveBodyDecodable_init props [] cv = some ds →
        DStmt.containerBinding ∉ ds) := by
  constructor
  · intro es h
    unfold deriveBodyEncodable_encode at h
    cases ht : optionTraverse (encodeStmtForKey props) keys with
    | none => rw [ht] at h; simp at h
    | some ms =>
      rw [ht] at h
      simp only [Option.some.injEq] at h
      subst h
      rfl
  · intro ds h
    unfold deriveBodyDecodable_init at h
    simp only [optionTraverse, List.isEmpty_nil, if_pos, List.nil_append,
      Option.some.injEq] at h
    subst h
    cases cv with
    | notClass => simp [superDecodeTail]
    | cls f sup =>
      cases sup with
      | none => simp [superDecodeTail]
      | some s =>
        cases hc : s.conformsDecodable with
        | true =>
          simp only [superDecodeTail, hc, if_pos]
          intro hmem
          rcases List.mem_singleton.mp hmem with h'
          exact DStmt.noConfusion h'
        | false =>
          simp only [superDecodeTail, hc]
          intro hmem
          rcases List.mem_singleton.mp hmem with h'
          exact DStmt.noConfusion h'

/-- C7 witness: on an empty record the encode body is exactly the container
binding and the decode body is empty. -/
theorem C7_witness :
    ([EStmt.containerBinding] : List EStmt).head? = some EStmt.containerBinding
    ∧ DStmt.containerBinding ∉ ([] : List DStmt) :=
  ⟨(C7_container_prelude [] [] TargetClassView.notClass).1 [EStmt.containerBinding] rfl,
   (C7_container_prelude [] [] TargetClassView.notClass).2 [] rfl⟩

/-- C1 counterexample: for a class with one decoded member and a Decodable
superclass, the statement right after the container prelude is the member
decode, not the superclass-initializer call; the super call comes last. -/
theorem C1_counterexample :
    deriveBodyDecodable_init
      [{ name := "x", ty := Ty.named "Int", userAccessible := true, isStatic := false,
         isLet := false, parentInitialized := false, defaultInitializable := false }]
      ["x"]
      (TargetClassView.cls false
        (some { conformsEncodable := true, conformsDecodable := true, ctorLookup := [] }))
      = some [DStmt.containerBinding, DStmt.memberDecode false "x" (Ty.named "Int") "x",
              DStmt.superInitFromSubDecoder]
    ∧ ([DStmt.containerBinding, DStmt.memberDecode false "x" (Ty.named "Int") "x",
        DStmt.superInitFromSubDecoder] : List DStmt)[1]? ≠ some DStmt.superInitFromSubDecoder := by
  decide

/-- C1 (corrected): the superclass-chaining call is emitted as the last
statement of the synthesized body, after all member statements: the decode
body ends with try super.init(from: container.superDecoder()) when the
superclass conforms to Decodable, and the encode body ends with
try super.encode(to: container.superEncoder()) when it conforms to
Encodable. -/
theorem C1_amended (props : List StoredVar) (keys : List String) (cv : TargetClassView) :
    (superclassConformsTo cv ProtocolKind.decodable = true →
      ∀ ds, deriveBodyDecodable_init props keys cv = some ds →
        ds.getLast? = some DStmt.superInitFromSubDecoder)
    ∧ (superclassConformsTo cv ProtocolKind.encodable = true →
      ∀ es, deriveBodyEncodable_encode props keys cv = some es →
        es.getLast? = some EStmt.superEncodeToSubEncoder) := by
  constructor
  · intro hS ds h
    cases cv with
    | notClass => simp [superclassConformsTo] at hS
    | cls f sup =>
      cases sup with
      | none => simp [superclassConformsTo] at hS
      | some s =>
        simp only [superclassConformsTo] at hS
        have htail : superDecodeTail (TargetClassView.cls f (some s))
            = [DStmt.superInitFromSubDecoder] := by
          simp [superDecodeTail, hS]
        unfold deriveBodyDecodable_init at h
        cases ht : optionTraverse (decodeStmtForKey props) keys with
        | none => rw [ht] at h; simp at h
        | some ms =>
          rw [ht] at h
          simp only [Option.some.injEq] at h
          subst h
          rw [htail]
          exact lastOfAppendSingle _ _
  · intro hS es h
    unfold deriveBodyEncodable_encode at h
    cases ht : optionTraverse (encodeStmtForKey props) keys with
    | none => rw [ht] at h; simp at h
    | some ms =>
      rw [ht] at h
      rw [hS] at h
      simp only [if_pos, Option.some.injEq] at h
      subst h
      exact lastOfAppendSingle _ _

/-- C1 witness: the decode and encode bodies of the counterexample class end
with the respective superclass-chaining calls. -/
theorem C1_witness :
    ([DStmt.containerBinding, DStmt.memberDecode false "x" (Ty.named "Int") "x",
      DStmt.superInitFromSubDecoder] : List DStmt).getLast?
        = some DStmt.superInitFromSubDecoder
    ∧ ([EStmt.containerBinding, EStmt.memberEncode false "x" "x",
        EStmt.superEncodeToSubEncoder] : List EStmt).getLast?
        = some EStmt.superEncodeToSubEncoder :=
  ⟨(C1_amended
      [{ name := "x", ty := Ty.named "Int", userAccessible := true, isStatic := false,
         isLet := false, parentInitialized := false, defaultInitializable := false }]
      ["x"]
      (TargetClassView.cls false
        (some { conformsEncodable := true, conformsDecodable := true, ctorLookup := [] }))).1
    (by decide) _ (by decide),
   (C1_amended
      [{ name := "x", ty := Ty.named "Int", userAccessible := true, isStatic := false,
         isLet := false, parentInitialized := false, defaultInitializable := false }]
      ["x"]
      (TargetClassView.cls false
        (some { conformsEncodable := true, conformsDecodable := true, ctorLookup := [] }))).2
    (by decide) _ (by decide)⟩

/-- C2 (confirmed): in the synthesized tagged-union decode body, the final arm
of the switch over container.allKeys.first is always the default arm, and its
statement is the fatalError placeholder call (message "foo"): the diagnostic
of a decoding failure is emitted through the fatal-error placeholder, the
framework error constructor being unused in the synthesized context. -/
theorem C2_default_arm (u : EnumTarget) (stmts : List EnumInitStmt)
    (arms : List SwitchArm) :
    deriveBodyDecodable_enum_init u = some stmts →
    EnumInitStmt.switchOnAllKeysFirst arms ∈ stmts →
    arms.getLast? = some (SwitchArm.defaultArm (DefaultStmt.fatalErrorCall "foo")) := by
  intro h hmem
  unfold deriveBodyDecodable_enum_init at h
  split at h
  · simp at h
  · split at h
    · simp only [Option.some.injEq] at h
      subst h
      cases hmem
    · split at h
      · simp at h
      · simp only [Option.some.injEq] at h
        subst h
        cases hmem with
        | tail _ hmem' =>
          cases hmem' with
          | head =>
            exact lastOfAppendSingle _ _
          | tail _ hmem'' => cases hmem''

/-- C2 witness: a one-case union produces the switch whose final arm is the
default arm with the fatalError placeholder. -/
theorem C2_witness :
    ([SwitchArm.caseArm "a" (EnumArmBody.assignCase "a"),
      SwitchArm.defaultArm (DefaultStmt.fatalErrorCall "foo")] : List SwitchArm).getLast?
      = some (SwitchArm.defaultArm (DefaultStmt.fatalErrorCall "foo")) :=
  C2_default_arm
    { cases := [{ name := "a", params := none }],
      decls := [(Ident.codingKeys,
        NamedDecl.keyEnum { cases := ["a"], isImplicit := true, conformsCodingKey := true })] }
    [EnumInitStmt.containerBinding,
     EnumInitStmt.switchOnAllKeysFirst
       [SwitchArm.caseArm "a" (EnumArmBody.assignCase "a"),
        SwitchArm.defaultArm (DefaultStmt.fatalErrorCall "foo")]]
    [SwitchArm.caseArm "a" (EnumArmBody.assignCase "a"),
     SwitchArm.defaultArm (DefaultStmt.fatalErrorCall "foo")]
    (by decide) (by decide)

/-- C8 counterexample: an ambiguous superclass-initializer lookup (two
candidates) makes the pre-check abort without emitting any dedicated
diagnostic, against the claim that every failure emits one. -/
theorem C8_counterexample :
    checkSuperclassInit
      [{ isDesignated := true, accessible := true, isFailable := false, throws := false },
       { isDesignated := true, accessible := true, isFailable := false, throws := false }]
    = (false, []) := by decide

/-- C8 (corrected): the pre-check succeeds exactly on a unique, designated,
accessible, non-failable superclass initializer; every failure except the
ambiguous-lookup case (more than one candidate, which bails silently and
relies on a later duplicate-declaration diagnostic) emits a dedicated
diagnostic; and any pre-check failure makes the Decodable derivation produce
no witness. -/
theorem C8_amended :
    (∀ (r : List Initializer),
      ((checkSuperclassInit r).1 = true ↔
        ∃ c, r = [c] ∧ c.isDesignated = true ∧ c.accessible = true ∧ c.isFailable = false)
      ∧ ((checkSuperclassInit r).1 = false →
          2 ≤ r.length ∨ (checkSuperclassInit r).2 ≠ []))
    ∧ (∀ (conforms : Ty → Bool) (props : List StoredVar)
         (decls : List (Ident × NamedDecl)) (acc : Nat) (f : Bool) (s : SuperDetail),
        (checkSuperclassInit s.ctorLookup).1 = false →
        deriveDecodable conforms
          { props := props, classView := TargetClassView.cls f (some s),
            access := acc, decls := decls } = none) := by
  constructor
  · intro r
    constructor
    · match r with
      | [] =>
        constructor
        · intro h; simp [checkSuperclassInit] at h
        · intro h
          obtain ⟨c, hc, _⟩ := h
          cases hc
      | [c] =>
        constructor
        · intro h
          refine ⟨c, rfl, ?_, ?_, ?_⟩ <;>
            (simp only [checkSuperclassInit] at h;
             cases h1 : c.isDesignated <;> cases h2 : c.accessible <;>
               cases h3 : c.isFailable <;> simp [h1, h2, h3] at h <;> simp_all)
        · intro h
          obtain ⟨c', hc, h1, h2, h3⟩ := h
          injection hc with hc1 hc2
          subst hc1
          simp [checkSuperclassInit, h1, h2, h3]
      | c1 :: c2 :: rest =>
        constructor
        · intro h; simp [checkSuperclassInit] at h
        · intro h
          obtain ⟨c, hc, _⟩ := h
          injection hc with _ hc2
          cases hc2
    · match r with
      | [] => intro _; right; simp [checkSuperclassInit]
      | [c] =>
        intro h
        right
        simp only [checkSuperclassInit] at h ⊢
        cases h1 : c.isDesignated <;> cases h2 : c.accessible <;>
          cases h3 : c.isFailable <;> simp [h1, h2, h3] at h ⊢
      | c1 :: c2 :: rest =>
        intro _
        left
        simp only [List.length_cons]
        omega
  · intro conforms props decls acc f s hfail
    unfold deriveDecodable canSynthesize
    simp only [hfail]
    simp

/-- C8 witness: the amended theorem applied to the ambiguous two-candidate
lookup and to a class target with an empty superclass-initializer lookup. -/
theorem C8_witness :
    (2 ≤ ([{ isDesignated := true, accessible := true, isFailable := false, throws := false },
           { isDesignated := true, accessible := true, isFailable := false, throws := false }] :
            List Initializer).length
      ∨ (checkSuperclassInit
          [{ isDesignated := true, accessible := true, isFailable := false, throws := false },
           { isDesignated := true, accessible := true, isFailable := false, throws := false }]).2 ≠ [])
    ∧ deriveDecodable (fun _ => true)
        { props := [], classView := TargetClassView.cls false
            (some { conformsEncodable := false, conformsDecodable := false, ctorLookup := [] }),
          access := 0, decls := [] } = none :=
  ⟨(C8_amended.1 _).2 (by decide),
   C8_amended.2 (fun _ => true) [] [] 0 false
     { conformsEncodable := false, conformsDecodable := false, ctorLookup := [] }
     (by decide)⟩

/-- Helper: shape of a successful lookupVarDeclForCodingKeysCase result: the
if-present flag is set exactly for a top-level optional type, whose payload
becomes the decoded type. -/
theorem lookupVarShape :
    ∀ (props : List StoredVar) (elt : String) (v : StoredVar) (ty : Ty) (b : Bool),
      lookupVarDeclForCodingKeysCase props elt = some (v, ty, b) →
      b = (Ty.optionalObjectType v.ty).isSome
      ∧ ty = (Ty.optionalObjectType v.ty).getD v.ty := by
  intro props
  induction props with
  | nil => intro elt v ty b h; cases h
  | cons w rest ih =>
    intro elt v ty b h
    unfold lookupVarDeclForCodingKeysCase at h
    by_cases hn : w.name = elt
    · rw [if_pos hn] at h
      by_cases hs : w.isStatic = true
      · rw [if_pos hs] at h
        exact ih elt v ty b h
      · rw [if_neg hs] at h
        cases ho : w.ty.optionalObjectType with
        | some o =>
          rw [ho] at h
          simp only [Option.some.injEq, Prod.mk.injEq] at h
          obtain ⟨hw, hty, hb⟩ := h
          subst hw
          rw [ho]
          exact ⟨hb.symm, hty.symm⟩
        | none =>
          rw [ho] at h
          simp only [Option.some.injEq, Prod.mk.injEq] at h
          obtain ⟨hw, hty, hb⟩ := h
          subst hw
          rw [ho]
          exact ⟨hb.symm, hty.symm⟩
    · rw [if_neg hn] at h
      exact ih elt v ty b h

/-- C6 (confirmed): the synthesized bodies select the if-present variants
exactly when the member type is optional at one level: the emitted encode
statement uses encodeIfPresent iff the flag is set, the emitted decode
statement symmetric, and the decoded metatype is the unwrapped payload type
for optionals and the member type otherwise; the encode statement appears in
every successfully synthesized encode body whose key list contains the key. -/
theorem C6_if_present_selection (props : List StoredVar) (elt : String)
    (v : StoredVar) (ty : Ty) (b : Bool) :
    lookupVarDeclForCodingKeysCase props elt = some (v, ty, b) →
    b = (Ty.optionalObjectType v.ty).isSome
    ∧ ty = (Ty.optionalObjectType v.ty).getD v.ty
    ∧ encodeStmtForKey props elt = some (EStmt.memberEncode b v.name elt)
    ∧ ((v.isLet && v.parentInitialized) = false →
        decodeStmtForKey props elt = some (some (DStmt.memberDecode b v.name ty elt)))
    ∧ (∀ (keys : List String) (cv : TargetClassView) (es : List EStmt),
        deriveBodyEncodable_encode props keys cv = some es → elt ∈ keys →
        EStmt.memberEncode b v.name elt ∈ es) := by
  intro h
  obtain ⟨hb, hty⟩ := lookupVarShape props elt v ty b h
  refine ⟨hb, hty, ?_, ?_, ?_⟩
  · unfold encodeStmtForKey
    rw [h]
  · intro hlp
    unfold decodeStmtForKey
    rw [h]
    simp [hlp]
  · intro keys cv es hes hkey
    unfold deriveBodyEncodable_encode at hes
    cases ht : optionTraverse (encodeStmtForKey props) keys with
    | none => rw [ht] at hes; simp at hes
    | some ms =>
      rw [ht] at hes
      simp only [Option.some.injEq] at hes
      subst hes
      obtain ⟨y, hy, hymem⟩ := optionTraverseMem (encodeStmtForKey props) keys ms ht elt hkey
      have hy' : y = EStmt.memberEncode b v.name elt := by
        unfold encodeStmtForKey at hy
        rw [h] at hy
        simp only [Option.some.injEq] at hy
        exact hy.symm
      subst hy'
      exact List.mem_append_left _ (List.mem_cons_of_mem _ hymem)

/-- C6 witness: an optional member uses the if-present variants with the
unwrapped metatype; evaluated on a concrete two-member record. -/
theorem C6_witness :
    true = (Ty.optionalObjectType (Ty.optional (Ty.named "String"))).isSome
    ∧ Ty.named "String"
        = (Ty.optionalObjectType (Ty.optional (Ty.named "String"))).getD
            (Ty.optional (Ty.named "String"))
    ∧ encodeStmtForKey
        [{ name := "name", ty := Ty.named "String", userAccessible := true, isStatic := false,
           isLet := false, parentInitialized := false, defaultInitializable := false },
         { name := "nick", ty := Ty.optional (Ty.named "String"), userAccessible := true,
           isStatic := false, isLet := false, parentInitialized := false,
           defaultInitializable := false }] "nick"
        = some (EStmt.memberEncode true "nick" "nick")
    ∧ ((false && false) = false →
        decodeStmtForKey
          [{ name := "name", ty := Ty.named "String", userAccessible := true, isStatic := false,
             isLet := false, parentInitialized := false, defaultInitializable := false },
           { name := "nick", ty := Ty.optional (Ty.named "String"), userAccessible := true,
             isStatic := false, isLet := false, parentInitialized := false,
             defaultInitializable := false }] "nick"
          = some (some (DStmt.memberDecode true "nick" (Ty.named "String") "nick")))
    ∧ (∀ (keys : List String) (cv : TargetClassView) (es : List EStmt),
        deriveBodyEncodable_encode
          [{ name := "name", ty := Ty.named "String", userAccessible := true, isStatic := false,
             isLet := false, parentInitialized := false, defaultInitializable := false },
           { name := "nick", ty := Ty.optional (Ty.named "String"), userAccessible := true,
             isStatic := false, isLet := false, parentInitialized := false,
             defaultInitializable := false }] keys cv = some es → "nick" ∈ keys →
        EStmt.memberEncode true "nick" "nick" ∈ es) :=
  C6_if_present_selection
    [{ name := "name", ty := Ty.named "String", userAccessible := true, isStatic := false,
       isLet := false, parentInitialized := false, defaultInitializable := false },
     { name := "nick", ty := Ty.optional (Ty.named "String"), userAccessible := true,
       isStatic := false, isLet := false, parentInitialized := false,
       defaultInitializable := false }] "nick"
    { name := "nick", ty := Ty.optional (Ty.named "String"), userAccessible := true,
      isStatic := false, isLet := false, parentInitialized := false,
      defaultInitializable := false }
    (Ty.named "String") true (by decide)

/-- C4 counterexample: a tagged union whose user-declared outer CodingKeys
enum has the extraneous case bogus (no matching union case) still classifies
as Valid with no diagnostics, where the claim demands an extraneous-key
diagnostic and an Invalid classification. -/
theorem C4_counterexample :
    classifyCodingKeys true (fun _ => true)
      (Nominal.union
        { cases := [{ name := "a", params := none }],
          decls := [(Ident.codingKeys,
              NamedDecl.keyEnum { cases := ["a", "bogus"], isImplicit := false,
                                  conformsCodingKey := true }),
            (Ident.caseKeys "a",
              NamedDecl.keyEnum { cases := [], isImplicit := false,
                                  conformsCodingKey := true })] })
      = (Classification.valid, [])
    ∧ Classification.valid ≠ Classification.invalid := by decide

/-- C4 (corrected): for tagged-union targets the Validator runs only on the
per-case key enums; the outer key enum is checked solely for being an enum
conforming to CodingKey, so its case list never influences classification: any
outer case list, including one with cases matching no union case, classifies
as Valid with no diagnostic. -/
theorem C4_amended (outerCases : List String) (impOuter impCase isDec : Bool)
    (conforms : Ty → Bool) :
    classifyCodingKeys isDec conforms
      (Nominal.union
        { cases := [{ name := "a", params := none }],
          decls := [(Ident.codingKeys,
              NamedDecl.keyEnum { cases := outerCases, isImplicit := impOuter,
                                  conformsCodingKey := true }),
            (Ident.caseKeys "a",
              NamedDecl.keyEnum { cases := [], isImplicit := impCase,
                                  conformsCodingKey := true })] })
      = (Classification.valid, []) := by
  cases isDec <;> rfl

/-- Helper: membership decides strContains. -/
theorem strContainsOfMem : ∀ (l : List String) (a : String), a ∈ l → strContains l a = true := by
  intro l
  induction l with
  | nil => intro a ha; cases ha
  | cons s rest ih =>
    intro a ha
    unfold strContains
    by_cases hs : s = a
    · rw [if_pos hs]
    · rw [if_neg hs]
      cases ha with
      | head => exact absurd rfl hs
      | tail _ h' => exact ih a h'

/-- Helper: a lookup that succeeds on the left of an append still succeeds. -/
theorem lookupDirectAppendLeft :
    ∀ (l l' : List (Ident × NamedDecl)) (k : Ident) (x : NamedDecl),
      lookupDirect l k = some x → lookupDirect (l ++ l') k = some x := by
  intro l
  induction l with
  | nil => intro l' k x h; cases h
  | cons d rest ih =>
    intro l' k x h
    obtain ⟨k1, v1⟩ := d
    rw [List.cons_append]
    unfold lookupDirect at h ⊢
    by_cases hd : k1 = k
    · rw [if_pos hd] at h ⊢
      exact h
    · rw [if_neg hd] at h ⊢
      exact ih l' k x h

/-- Helper: appending an entry with a different key does not change lookup. -/
theorem lookupDirectAppendNe :
    ∀ (l : List (Ident × NamedDecl)) (k' k : Ident) (v : NamedDecl),
      k' ≠ k → lookupDirect (l ++ [(k', v)]) k = lookupDirect l k := by
  intro l
  induction l with
  | nil =>
    intro k' k v hne
    rw [List.nil_append]
    unfold lookupDirect
    rw [if_neg hne]
    rfl
  | cons d rest ih =>
    intro k' k v hne
    obtain ⟨k1, v1⟩ := d
    rw [List.cons_append]
    unfold lookupDirect
    by_cases hd : k1 = k
    · rw [if_pos hd, if_pos hd]
    · rw [if_neg hd, if_neg hd]
      exact ih k' k v hne

/-- Helper: appending an entry under a key that failed to resolve makes it
resolve to the appended declaration. -/
theorem lookupDirectAppendSelf :
    ∀ (l : List (Ident × NamedDecl)) (k : Ident) (v : NamedDecl),
      lookupDirect l k = none → lookupDirect (l ++ [(k, v)]) k = some v := by
  intro l
  induction l with
  | nil =>
    intro k v _
    rw [List.nil_append]
    unfold lookupDirect
    rw [if_pos rfl]
  | cons d rest ih =>
    intro k v h
    obtain ⟨k1, v1⟩ := d
    rw [List.cons_append]
    unfold lookupDirect at h ⊢
    by_cases hd : k1 = k
    · rw [if_pos hd] at h; cases h
    · rw [if_neg hd] at h ⊢
      exact ih k v h

/-- Helper: one synthesis step preserves a successful lookup. -/
theorem synthStepPreservesSome (conforms : Ty → Bool) (oc : List String)
    (st : List (Ident × NamedDecl) × Bool) (elt : UnionCase) (k : Ident) (x : NamedDecl)
    (h : lookupDirect st.1 k = some x) :
    lookupDirect (synthStep conforms oc st elt).1 k = some x := by
  unfold synthStep
  by_cases h1 : strContains oc elt.name = false
  · rw [if_pos h1]; exact h
  · rw [if_neg h1]
    by_cases h2 : (lookupDirect st.1 (Ident.caseKeys elt.name)).isSome = true
    · rw [if_pos h2]; exact h
    · rw [if_neg h2]
      by_cases h3 : elt.hasAnyUnnamedParameters = true
      · rw [if_pos h3]; exact h
      · rw [if_neg h3]
        exact lookupDirectAppendLeft st.1 _ k x h

/-- Helper: the synthesis fold preserves a successful lookup. -/
theorem synthFoldPreservesSome (conforms : Ty → Bool) (oc : List String) :
    ∀ (l : List UnionCase) (st : List (Ident × NamedDecl) × Bool) (k : Ident) (x : NamedDecl),
      lookupDirect st.1 k = some x →
      lookupDirect (List.foldl (synthStep conforms oc) st l).1 k = some x := by
  intro l
  induction l with
  | nil => intro st k x h; exact h
  | cons e rest ih =>
    intro st k x h
    rw [List.foldl_cons]
    exact ih _ k x (synthStepPreservesSome conforms oc st e k x h)

/-- Helper: one synthesis step only installs the per-case key of its own
case. -/
theorem synthStepPreservesNone (conforms : Ty → Bool) (oc : List String)
    (st : List (Ident × NamedDecl) × Bool) (elt : UnionCase) (k : Ident)
    (h : lookupDirect st.1 k = none) (hne : Ident.caseKeys elt.name ≠ k) :
    lookupDirect (synthStep conforms oc st elt).1 k = none := by
  unfold synthStep
  by_cases h1 : strContains oc elt.name = false
  · rw [if_pos h1]; exact h
  · rw [if_neg h1]
    by_cases h2 : (lookupDirect st.1 (Ident.caseKeys elt.name)).isSome = true
    · rw [if_pos h2]; exact h
    · rw [if_neg h2]
      by_cases h3 : elt.hasAnyUnnamedParameters = true
      · rw [if_pos h3]; exact h
      · rw [if_neg h3]
        rw [lookupDirectAppendNe st.1 _ k _ hne]
        exact h

/-- Helper: the synthesis fold only installs per-case keys of its cases. -/
theorem synthFoldPreservesNone (conforms : Ty → Bool) (oc : List String) :
    ∀ (l : List UnionCase) (st : List (Ident × NamedDecl) × Bool) (k : Ident),
      lookupDirect st.1 k = none → (∀ e ∈ l, Ident.caseKeys e.name ≠ k) →
      lookupDirect (List.foldl (synthStep conforms oc) st l).1 k = none := by
  intro l
  induction l with
  | nil => intro st k h _; exact h
  | cons e rest ih =>
    intro st k h hne
    rw [List.foldl_cons]
    exact ih _ k
      (synthStepPreservesNone conforms oc st e k h (hne e (List.mem_cons_self _ _)))
      (fun e' he' => hne e' (List.mem_cons_of_mem _ he'))

/-- Helper: the synthesis fold does not move the CodingKeys entry. -/
theorem synthFoldLookupCodingKeys (conforms : Ty → Bool) (oc : List String) :
    ∀ (l : List UnionCase) (st : List (Ident × NamedDecl) × Bool),
      lookupDirect (List.foldl (synthStep conforms oc) st l).1 Ident.codingKeys
        = lookupDirect st.1 Ident.codingKeys := by
  intro l
  induction l with
  | nil => intro st; rfl
  | cons e rest ih =>
    intro st
    rw [List.foldl_cons, ih]
    unfold synthStep
    by_cases h1 : strContains oc e.name = false
    · rw [if_pos h1]
    · rw [if_neg h1]
      by_cases h2 : (lookupDirect st.1 (Ident.caseKeys e.name)).isSome = true
      · rw [if_pos h2]
      · rw [if_neg h2]
        by_cases h3 : e.hasAnyUnnamedParameters = true
        · rw [if_pos h3]
        · rw [if_neg h3]
          exact lookupDirectAppendNe st.1 _ Ident.codingKeys _ (fun hk => Ident.noConfusion hk)

/-- Helper: after the per-case loop, every case is either absent from the
outer enum, has an unnamed parameter, or has its per-case key enum
installed. -/
theorem synthFoldInvariant (conforms : Ty → Bool) (oc : List String) :
    ∀ (l : List UnionCase) (st : List (Ident × NamedDecl) × Bool),
      ∀ e ∈ l,
        strContains oc e.name = false
        ∨ e.hasAnyUnnamedParameters = true
        ∨ (lookupDirect (List.foldl (synthStep conforms oc) st l).1
            (Ident.caseKeys e.name)).isSome = true := by
  intro l
  induction l with
  | nil => intro st e he; cases he
  | cons e0 rest ih =>
    intro st e he
    rw [List.foldl_cons]
    cases he with
    | tail _ he' => exact ih (synthStep conforms oc st e0) e he'
    | head =>
      by_cases h1 : strContains oc e0.name = false
      · exact Or.inl h1
      · by_cases h3 : e0.hasAnyUnnamedParameters = true
        · exact Or.inr (Or.inl h3)
        · refine Or.inr (Or.inr ?_)
          cases hl : lookupDirect st.1 (Ident.caseKeys e0.name) with
          | some x =>
            have := synthFoldPreservesSome conforms oc rest
              (synthStep conforms oc st e0) (Ident.caseKeys e0.name) x
              (synthStepPreservesSome conforms oc st e0 _ x hl)
            rw [this]
            rfl
          | none =>
            have hstep : synthStep conforms oc st e0
                = (st.1 ++ [(Ident.caseKeys e0.name,
                    NamedDecl.keyEnum
                      { cases := (caseKeyEnumCases conforms (([], st.2) : List String × Bool)
                          (e0.params.getD [])).1,
                        isImplicit := true, conformsCodingKey := true })],
                   (caseKeyEnumCases conforms (([], st.2) : List String × Bool)
                      (e0.params.getD [])).2) := by
              unfold synthStep
              rw [if_neg h1]
              rw [hl]
              simp only [Option.isSome_none, Bool.false_eq_true, if_false]
              rw [if_neg h3]
            have hsome := lookupDirectAppendSelf st.1 (Ident.caseKeys e0.name)
              (NamedDecl.keyEnum
                { cases := (caseKeyEnumCases conforms (([], st.2) : List String × Bool)
                    (e0.params.getD [])).1,
                  isImplicit := true, conformsCodingKey := true }) hl
            have hafter : lookupDirect (synthStep conforms oc st e0).1 (Ident.caseKeys e0.name)
                = some (NamedDecl.keyEnum
                    { cases := (caseKeyEnumCases conforms (([], st.2) : List String × Bool)
                        (e0.params.getD [])).1,
                      isImplicit := true, conformsCodingKey := true }) := by
              rw [hstep]
              exact hsome
            have := synthFoldPreservesSome conforms oc rest
              (synthStep conforms oc st e0) (Ident.caseKeys e0.name) _ hafter
            rw [this]
            rfl

/-- Helper: if the step ignores every element, the fold is the identity. -/
theorem foldlOfIdentity {σ α : Type} (f : σ → α → σ) :
    ∀ (l : List α) (s : σ), (∀ e ∈ l, f s e = s) → List.foldl f s l = s := by
  intro l
  induction l with
  | nil => intro s _; rfl
  | cons e rest ih =>
    intro s h
    rw [List.foldl_cons, h e (List.mem_cons_self _ _)]
    exact ih s (fun e' he' => h e' (List.mem_cons_of_mem _ he'))

/-- Helper: a step whose case is absent from the outer enum, already
installed, or carrying an unnamed parameter, is the identity. -/
theorem synthStepSkip (conforms : Ty → Bool) (oc : List String)
    (d : List (Ident × NamedDecl)) (b : Bool) (e : UnionCase)
    (h : strContains oc e.name = false
      ∨ e.hasAnyUnnamedParameters = true
      ∨ (lookupDirect d (Ident.caseKeys e.name)).isSome = true) :
    synthStep conforms oc (d, b) e = (d, b) := by
  unfold synthStep
  by_cases h1 : strContains oc e.name = false
  · rw [if_pos h1]
  · rw [if_neg h1]
    by_cases h2 : (lookupDirect d (Ident.caseKeys e.name)).isSome = true
    · rw [if_pos h2]
    · rw [if_neg h2]
      rcases h with h | h | h
      · exact absurd h h1
      · rw [if_pos h]
      · exact absurd h h2

/-- C3 counterexample: a union case with no parameters does receive a nested
keyed enum — the synthesizer installs an empty CodingKeys_a for the
parameterless case a, where the claim says such cases get none. -/
theorem C3_counterexample :
    lookupDirect (synthesizeCodingKeysEnum_enum (fun _ => true)
        { cases := [{ name := "a", params := none }], decls := [] }).1.decls
      (Ident.caseKeys "a")
    = some (NamedDecl.keyEnum { cases := [], isImplicit := true, conformsCodingKey := true }) := by
  decide

/-- C3 (corrected): on a fresh tagged union the synthesizer creates the
nested CodingKeys_<case> enum exactly for the cases without any unnamed
parameter: cases with at least one unnamed parameter are skipped, while cases
with named parameters and parameterless cases alike receive a nested enum
(empty for the latter). -/
theorem C3_amended (conforms : Ty → Bool) (ucs : List UnionCase)
    (hnd : (ucs.map UnionCase.name).Nodup) (c : UnionCase) (hc : c ∈ ucs) :
    (lookupDirect (synthesizeCodingKeysEnum_enum conforms
        { cases := ucs, decls := [] }).1.decls
      (Ident.caseKeys c.name)).isSome = !c.hasAnyUnnamedParameters := by
  obtain ⟨l1, l2, rfl⟩ := List.append_of_mem hc
  have hOuter : synthOuter { cases := l1 ++ c :: l2, decls := [] }
      = ([(Ident.codingKeys,
            NamedDecl.keyEnum
              { cases := (l1 ++ c :: l2).map UnionCase.name, isImplicit := true,
                conformsCodingKey := true })],
         (l1 ++ c :: l2).map UnionCase.name) := rfl
  have hmain : (synthesizeCodingKeysEnum_enum conforms
        { cases := l1 ++ c :: l2, decls := [] }).1.decls
      = (List.foldl
          (synthStep conforms ((l1 ++ c :: l2).map UnionCase.name))
          ([(Ident.codingKeys,
              NamedDecl.keyEnum
                { cases := (l1 ++ c :: l2).map UnionCase.name, isImplicit := true,
                  conformsCodingKey := true })], true)
          (l1 ++ c :: l2)).1 := by
    unfold synthesizeCodingKeysEnum_enum
    rw [hOuter]
  rw [hmain]
  rw [List.map_append, List.map_cons] at hnd
  obtain ⟨hnd1, hnd2, hdisj⟩ := List.nodup_append.mp hnd
  obtain ⟨hc2, _⟩ := List.nodup_cons.mp hnd2
  have hc1 : c.name ∉ l1.map UnionCase.name :=
    fun hm => hdisj hm (List.mem_cons_self _ _)
  have hbase : lookupDirect
      [(Ident.codingKeys,
         NamedDecl.keyEnum
           { cases := (l1 ++ c :: l2).map UnionCase.name, isImplicit := true,
             conformsCodingKey := true })]
      (Ident.caseKeys c.name) = none := by
    unfold lookupDirect
    rw [if_neg (fun hk => Ident.noConfusion hk)]
    rfl
  have hs1 : lookupDirect
      (List.foldl (synthStep conforms ((l1 ++ c :: l2).map UnionCase.name))
        ([(Ident.codingKeys,
            NamedDecl.keyEnum
              { cases := (l1 ++ c :: l2).map UnionCase.name, isImplicit := true,
                conformsCodingKey := true })], true) l1).1
      (Ident.caseKeys c.name) = none := by
    refine synthFoldPreservesNone conforms _ l1 _ _ hbase ?_
    intro e he hk
    injection hk with hk'
    exact hc1 (hk' ▸ List.mem_map_of_mem UnionCase.name he)
  rw [List.foldl_append, List.foldl_cons]
  have hcont : strContains ((l1 ++ c :: l2).map UnionCase.name) c.name = true :=
    strContainsOfMem _ _ (by
      rw [List.map_append, List.map_cons]
      exact List.mem_append_right _ (List.mem_cons_self _ _))
  have hl2ne : ∀ e ∈ l2, Ident.caseKeys e.name ≠ Ident.caseKeys c.name := by
    intro e he hk
    injection hk with hk'
    exact hc2 (hk' ▸ List.mem_map_of_mem UnionCase.name he)
  set s1 := List.foldl (synthStep conforms ((l1 ++ c :: l2).map UnionCase.name))
    ([(Ident.codingKeys,
        NamedDecl.keyEnum
          { cases := (l1 ++ c :: l2).map UnionCase.name, isImplicit := true,
            conformsCodingKey := true })], true) l1 with hs1def
  cases hu : c.hasAnyUnnamedParameters with
  | true =>
    have hstep : synthStep conforms ((l1 ++ c :: l2).map UnionCase.name) s1 c = s1 := by
      have := synthStepSkip conforms ((l1 ++ c :: l2).map UnionCase.name) s1.1 s1.2 c
        (Or.inr (Or.inl hu))
      exact this
    rw [hstep]
    rw [synthFoldPreservesNone conforms _ l2 s1 _ hs1 hl2ne]
    rfl
  | false =>
    have hstep : synthStep conforms ((l1 ++ c :: l2).map UnionCase.name) s1 c
        = (s1.1 ++ [(Ident.caseKeys c.name,
            NamedDecl.keyEnum
              { cases := (caseKeyEnumCases conforms (([], s1.2) : List String × Bool)
                  (c.params.getD [])).1,
                isImplicit := true, conformsCodingKey := true })],
           (caseKeyEnumCases conforms (([], s1.2) : List String × Bool)
              (c.params.getD [])).2) := by
      unfold synthStep
      rw [hcont]
      simp only [Bool.true_eq_false, if_false]
      rw [hs1]
      simp only [Option.isSome_none, Bool.false_eq_true, if_false]
      rw [hu]
      simp only [Bool.false_eq_true, if_false]
    rw [hstep]
    have hafter := lookupDirectAppendSelf s1.1 (Ident.caseKeys c.name)
      (NamedDecl.keyEnum
        { cases := (caseKeyEnumCases conforms (([], s1.2) : List String × Bool)
            (c.params.getD [])).1,
          isImplicit := true, conformsCodingKey := true }) hs1
    have hfinal := synthFoldPreservesSome conforms ((l1 ++ c :: l2).map UnionCase.name) l2
      (s1.1 ++ [(Ident.caseKeys c.name,
          NamedDecl.keyEnum
            { cases := (caseKeyEnumCases conforms (([], s1.2) : List String × Bool)
                (c.params.getD [])).1,
              isImplicit := true, conformsCodingKey := true })],
       (caseKeyEnumCases conforms (([], s1.2) : List String × Bool)
          (c.params.getD [])).2)
      (Ident.caseKeys c.name) _ hafter
    rw [hfinal]
    rfl

/-- C3 witness: the amended rule evaluated at the positional case pair of
union Shape, which gets no nested keyed enum. -/
theorem C3_witness :
    (lookupDirect (synthesizeCodingKeysEnum_enum (fun _ => true)
        { cases :=
            [{ name := "circle",
               params := some [{ label := some "radius", ty := Ty.named "Double",
                                 hasDefaultExpr := false, userAccessible := true }] },
             { name := "pair",
               params := some [{ label := none, ty := Ty.named "Int",
                                 hasDefaultExpr := false, userAccessible := true },
                               { label := none, ty := Ty.named "Int",
                                 hasDefaultExpr := false, userAccessible := true }] }],
          decls := [] }).1.decls
      (Ident.caseKeys "pair")).isSome
    = !(UnionCase.hasAnyUnnamedParameters
        { name := "pair",
          params := some [{ label := none, ty := Ty.named "Int",
                            hasDefaultExpr := false, userAccessible := true },
                          { label := none, ty := Ty.named "Int",
                            hasDefaultExpr := false, userAccessible := true }] }) :=
  C3_amended (fun _ => true)
    [{ name := "circle",
       params := some [{ label := some "radius", ty := Ty.named "Double",
                         hasDefaultExpr := false, userAccessible := true }] },
     { name := "pair",
       params := some [{ label := none, ty := Ty.named "Int",
                         hasDefaultExpr := false, userAccessible := true },
                       { label := none, ty := Ty.named "Int",
                         hasDefaultExpr := false, userAccessible := true }] }]
    (by decide)
    { name := "pair",
      params := some [{ label := none, ty := Ty.named "Int",
                        hasDefaultExpr := false, userAccessible := true },
                      { label := none, ty := Ty.named "Int",
                        hasDefaultExpr := false, userAccessible := true }] }
    (by decide)

/-- Helper: generic second-run no-op for the tagged-union synthesizer, given
the outer phase resolved to a key enum whose cases drive both runs. -/
theorem synthRunAux (conforms : Ty → Bool) (t : EnumTarget)
    (d1 : List (Ident × NamedDecl)) (e' : KeyEnum)
    (hOuter1 : synthOuter t = (d1, e'.cases))
    (hlook1 : lookupDirect d1 Ident.codingKeys = some (NamedDecl.keyEnum e')) :
    synthesizeCodingKeysEnum_enum conforms (synthesizeCodingKeysEnum_enum conforms t).1
      = ((synthesizeCodingKeysEnum_enum conforms t).1, true) := by
  have hrun1 : synthesizeCodingKeysEnum_enum conforms t
      = ({ cases := t.cases,
           decls := (List.foldl (synthStep conforms e'.cases) (d1, true) t.cases).1 },
         (List.foldl (synthStep conforms e'.cases) (d1, true) t.cases).2) := by
    simp only [synthesizeCodingKeysEnum_enum]
    rw [hOuter1]
  set d2 := (List.foldl (synthStep conforms e'.cases) (d1, true) t.cases).1 with hd2
  have hlook2 : lookupDirect d2 Ident.codingKeys = some (NamedDecl.keyEnum e') := by
    rw [hd2, synthFoldLookupCodingKeys]
    exact hlook1
  have hOuter2 : synthOuter { cases := t.cases, decls := d2 } = (d2, e'.cases) := by
    unfold synthOuter lookupEvaluatedCodingKeysEnum
    dsimp only
    rw [hlook2]
  have hfold2 : List.foldl (synthStep conforms e'.cases) (d2, true) t.cases = (d2, true) := by
    apply foldlOfIdentity
    intro e he
    apply synthStepSkip
    have hinv := synthFoldInvariant conforms e'.cases t.cases (d1, true) e he
    rw [← hd2] at hinv
    exact hinv
  rw [hrun1]
  simp only [synthesizeCodingKeysEnum_enum]
  rw [hOuter2]
  dsimp only
  rw [hfold2]

/-- C9 counterexample: after a successful first run on a union with the
positional case pair, the second run observes NeedsSynthesizedCodingKeys, not
Valid (no CodingKeys_pair was or will be installed for the unnamed-parameter
case). -/
theorem C9_counterexample :
    (synthesizeCodingKeysEnum_enum (fun _ => true)
      { cases := [{ name := "pair",
                    params := some [{ label := none, ty := Ty.named "Int",
                                      hasDefaultExpr := false, userAccessible := true },
                                    { label := none, ty := Ty.named "Int",
                                      hasDefaultExpr := false, userAccessible := true }] }],
        decls := [] }).2 = true
    ∧ classifyCodingKeys true (fun _ => true)
        (Nominal.union (synthesizeCodingKeysEnum_enum (fun _ => true)
          { cases := [{ name := "pair",
                        params := some [{ label := none, ty := Ty.named "Int",
                                          hasDefaultExpr := false, userAccessible := true },
                                        { label := none, ty := Ty.named "Int",
                                          hasDefaultExpr := false, userAccessible := true }] }],
            decls := [] }).1)
      = (Classification.needsSynthesizedCodingKeys, [])
    ∧ Classification.needsSynthesizedCodingKeys ≠ Classification.valid := by decide

/-- C9 (corrected): re-running the tagged-union key-enum synthesizer installs
nothing new: on any target whose CodingKeys name is either unresolved or a key
enum, the second run returns the first-run state unchanged and reports
success. The second-run classification, however, need not be Valid: a union
case without a per-case key enum (an unnamed-parameter case) makes it report
NeedsSynthesizedCodingKeys. -/
theorem C9_amended (conforms : Ty → Bool) (t : EnumTarget)
    (houter : lookupDirect t.decls Ident.codingKeys = none
      ∨ ∃ e, lookupDirect t.decls Ident.codingKeys = some (NamedDecl.keyEnum e)) :
    synthesizeCodingKeysEnum_enum conforms (synthesizeCodingKeysEnum_enum conforms t).1
      = ((synthesizeCodingKeysEnum_enum conforms t).1, true) := by
  rcases houter with h0 | ⟨e, he⟩
  · refine synthRunAux conforms t
      (t.decls ++ [(Ident.codingKeys,
        NamedDecl.keyEnum
          { cases := t.cases.map UnionCase.name, isImplicit := true,
            conformsCodingKey := true })])
      { cases := t.cases.map UnionCase.name, isImplicit := true, conformsCodingKey := true }
      ?_ ?_
    · unfold synthOuter lookupEvaluatedCodingKeysEnum
      rw [h0]
    · exact lookupDirectAppendSelf t.decls Ident.codingKeys _ h0
  · refine synthRunAux conforms t t.decls e ?_ he
    unfold synthOuter lookupEvaluatedCodingKeysEnum
    rw [he]

/-- C9 witness: the second-run no-op evaluated on the concrete pair union. -/
theorem C9_witness :
    synthesizeCodingKeysEnum_enum (fun _ => true)
        (synthesizeCodingKeysEnum_enum (fun _ => true)
          { cases := [{ name := "pair",
                        params := some [{ label := none, ty := Ty.named "Int",
                                          hasDefaultExpr := false, userAccessible := true },
                                        { label := none, ty := Ty.named "Int",
                                          hasDefaultExpr := false, userAccessible := true }] }],
            decls := [] }).1
      = ((synthesizeCodingKeysEnum_enum (fun _ => true)
          { cases := [{ name := "pair",
                        params := some [{ label := none, ty := Ty.named "Int",
                                          hasDefaultExpr := false, userAccessible := true },
                                        { label := none, ty := Ty.named "Int",
                                          hasDefaultExpr := false, userAccessible := true }] }],
            decls := [] }).1, true) :=
  C9_amended (fun _ => true)
    { cases := [{ name := "pair",
                  params := some [{ label := none, ty := Ty.named "Int",
                                    hasDefaultExpr := false, userAccessible := true },
                                  { label := none, ty := Ty.named "Int",
                                    hasDefaultExpr := false, userAccessible := true }] }],
      decls := [] }
    (Or.inl rfl)

/-- Helper: inserting a fresh binding makes it a member. -/
theorem memAlistInsertSelf {α : Type} :
    ∀ (m : List (String × α)) (k : String) (v : α), (k, v) ∈ alistInsert m k v := by
  intro m
  induction m with
  | nil => intro k v; exact List.mem_singleton.mpr rfl
  | cons p rest ih =>
    intro k v
    obtain ⟨k1, v1⟩ := p
    unfold alistInsert
    by_cases hk : k1 = k
    · rw [if_pos hk]
      subst hk
      exact List.mem_cons_self _ _
    · rw [if_neg hk]
      exact List.mem_cons_of_mem _ (ih k v)

/-- Helper: insertion under another key preserves membership. -/
theorem memAlistInsertNe {α : Type} :
    ∀ (m : List (String × α)) (k0 k : String) (v0 v : α),
      (k0, v0) ∈ m → k0 ≠ k → (k0, v0) ∈ alistInsert m k v := by
  intro m
  induction m with
  | nil => intro k0 k v0 v hmem _; cases hmem
  | cons p rest ih =>
    intro k0 k v0 v hmem hne
    obtain ⟨k1, v1⟩ := p
    unfold alistInsert
    by_cases hk : k1 = k
    · rw [if_pos hk]
      cases hmem with
      | head => exact absurd hk hne
      | tail _ h' => exact List.mem_cons_of_mem _ h'
    · rw [if_neg hk]
      cases hmem with
      | head => exact List.mem_cons_self _ _
      | tail _ h' => exact List.mem_cons_of_mem _ (ih k0 k v0 v h' hne)

/-- Helper: erasure under another key preserves membership. -/
theorem memAlistEraseNe {α : Type} :
    ∀ (m : List (String × α)) (k0 k : String) (v0 : α),
      (k0, v0) ∈ m → k0 ≠ k → (k0, v0) ∈ alistErase m k := by
  intro m
  induction m with
  | nil => intro k0 k v0 hmem _; cases hmem
  | cons p rest ih =>
    intro k0 k v0 hmem hne
    obtain ⟨k1, v1⟩ := p
    unfold alistErase
    by_cases hk : k1 = k
    · rw [if_pos hk]
      cases hmem with
      | head => exact absurd hk hne
      | tail _ h' => exact h'
    · rw [if_neg hk]
      cases hmem with
      | head => exact List.mem_cons_self _ _
      | tail _ h' => exact List.mem_cons_of_mem _ (ih k0 k v0 h' hne)

/-- Helper: the property-map fold preserves bindings whose key no later
accessible property shares. -/
theorem insertPropsPreserve :
    ∀ (l : List StoredVar) (acc : List (String × StoredVar)) (k0 : String) (v0 : StoredVar),
      (k0, v0) ∈ acc → (∀ w ∈ l, w.userAccessible = true → w.name ≠ k0) →
      (k0, v0) ∈ insertProps acc l := by
  intro l
  induction l with
  | nil => intro acc k0 v0 hmem _; exact hmem
  | cons w rest ih =>
    intro acc k0 v0 hmem hno
    unfold insertProps
    apply ih
    · cases hua : w.userAccessible with
      | true =>
        rw [if_pos rfl]
        exact memAlistInsertNe acc k0 w.name v0 w hmem
          (fun hk => (hno w (List.mem_cons_self _ _) hua) hk.symm)
      | false =>
        rw [if_neg (fun h => Bool.noConfusion h)]
        exact hmem
    · exact fun w' hw' => hno w' (List.mem_cons_of_mem _ hw')

/-- Helper: with pairwise-distinct accessible coding names, every accessible
property appears in the properties map under its own name. -/
theorem memBuildPropertiesMapAux :
    ∀ (l : List StoredVar) (acc : List (String × StoredVar)) (v : StoredVar),
      ((l.filter (fun w => w.userAccessible)).map (fun w => w.name)).Nodup →
      v ∈ l → v.userAccessible = true → (v.name, v) ∈ insertProps acc l := by
  intro l
  induction l with
  | nil => intro acc v _ hv _; cases hv
  | cons w rest ih =>
    intro acc v hnd hv hua
    unfold insertProps
    cases hv with
    | head =>
      rw [hua]
      simp only [if_pos]
      have hfil : (w :: rest).filter (fun w => w.userAccessible)
          = w :: rest.filter (fun w => w.userAccessible) := by
        rw [List.filter_cons]
        rw [hua]
        simp
      rw [hfil, List.map_cons] at hnd
      obtain ⟨hni, _⟩ := List.nodup_cons.mp hnd
      apply insertPropsPreserve
      · exact memAlistInsertSelf acc w.name w
      · intro w' hw' hw'a hkeq
        exact hni (hkeq ▸ List.mem_map_of_mem (fun w => w.name)
          (List.mem_filter.mpr ⟨hw', hw'a⟩))
    | tail _ hv' =>
      have hnd' : ((rest.filter (fun w => w.userAccessible)).map (fun w => w.name)).Nodup := by
        cases hwa : w.userAccessible with
        | true =>
          rw [List.filter_cons, hwa] at hnd
          simp only [if_pos] at hnd
          rw [List.map_cons] at hnd
          exact (List.nodup_cons.mp hnd).2
        | false =>
          rw [List.filter_cons, hwa] at hnd
          simp only [Bool.false_eq_true, if_false] at hnd
          exact hnd
      exact ih _ v hnd' hv' hua

theorem memBuildPropertiesMap (props : List StoredVar) (v : StoredVar)
    (hnd : ((props.filter (fun w => w.userAccessible)).map (fun w => w.name)).Nodup)
    (hv : v ∈ props) (hua : v.userAccessible = true) :
    (v.name, v) ∈ buildPropertiesMap props :=
  memBuildPropertiesMapAux props [] v hnd hv hua

/-- Helper: the key-validation loop never drops a binding whose key the key
enum does not mention. -/
theorem validateKeysLoopPreserve {α : Type} (conforms : Ty → Bool) (tyOf : α → Ty) :
    ∀ (keys : List String) (m : List (String × α)) (valid : Bool) (ds : List Diag)
      (k0 : String) (v0 : α),
      (k0, v0) ∈ m → (∀ k ∈ keys, k ≠ k0) →
      (k0, v0) ∈ (validateKeysLoop conforms tyOf keys m valid ds).2.2 := by
  intro keys
  induction keys with
  | nil => intro m valid ds k0 v0 hmem _; exact hmem
  | cons k rest ih =>
    intro m valid ds k0 v0 hmem hkeys
    unfold validateKeysLoop
    cases hf : alistFind m k with
    | none =>
      exact ih m false _ k0 v0 hmem (fun k' hk' => hkeys k' (List.mem_cons_of_mem _ hk'))
    | some w =>
      dsimp only
      by_cases hc : conforms (tyOf w) = true
      · rw [if_pos hc]
        exact ih _ valid ds k0 v0
          (memAlistEraseNe m k0 k v0 hmem
            (fun hk => (hkeys k (List.mem_cons_self _ _)) hk.symm))
          (fun k' hk' => hkeys k' (List.mem_cons_of_mem _ hk'))
      · rw [if_neg hc]
        exact ih m false _ k0 v0 hmem (fun k' hk' => hkeys k' (List.mem_cons_of_mem _ hk'))

/-- Helper: the leftover loop only appends diagnostics. -/
theorem leftoverOkExtends {α : Type} (hd : α → Bool) :
    ∀ (rem : List (String × α)) (b : Bool) (ds : List Diag),
      ∃ ds', (leftoverOk hd rem b ds).2 = ds ++ ds' := by
  intro rem
  induction rem with
  | nil => intro b ds; exact ⟨[], (List.append_nil ds).symm⟩
  | cons p rest ih =>
    intro b ds
    obtain ⟨k, v⟩ := p
    unfold leftoverOk
    by_cases hdv : hd v = true
    · rw [if_pos hdv]
      exact ih b ds
    · rw [if_neg hdv]
      obtain ⟨ds'', hds⟩ := ih false (ds ++ [Diag.nonDecodedProperty k])
      exact ⟨[Diag.nonDecodedProperty k] ++ ds'', by rw [hds, List.append_assoc]⟩

/-- Helper: once the leftover loop turned invalid it stays invalid. -/
theorem leftoverOkFalse {α : Type} (hd : α → Bool) :
    ∀ (rem : List (String × α)) (ds : List Diag), (leftoverOk hd rem false ds).1 = false := by
  intro rem
  induction rem with
  | nil => intro ds; rfl
  | cons p rest ih =>
    intro ds
    obtain ⟨k, v⟩ := p
    unfold leftoverOk
    by_cases hdv : hd v = true
    · rw [if_pos hdv]; exact ih ds
    · rw [if_neg hdv]; exact ih _

/-- Helper: a defaultless leftover member turns the loop invalid and is
diagnosed as a non-decoded property. -/
theorem leftoverOkMem {α : Type} (hd : α → Bool) :
    ∀ (rem : List (String × α)) (b : Bool) (ds : List Diag) (k0 : String) (v0 : α),
      (k0, v0) ∈ rem → hd v0 = false →
      (leftoverOk hd rem b ds).1 = false
      ∧ Diag.nonDecodedProperty k0 ∈ (leftoverOk hd rem b ds).2 := by
  intro rem
  induction rem with
  | nil => intro b ds k0 v0 hmem _; cases hmem
  | cons p rest ih =>
    intro b ds k0 v0 hmem hno
    obtain ⟨k1, v1⟩ := p
    unfold leftoverOk
    cases hmem with
    | head =>
      rw [if_neg (by rw [hno]; exact fun h => Bool.noConfusion h)]
      constructor
      · exact leftoverOkFalse hd rest _
      · obtain ⟨ds', hds⟩ := leftoverOkExtends hd rest false
          (ds ++ [Diag.nonDecodedProperty k0])
        rw [hds]
        exact List.mem_append_left _
          (List.mem_append_right _ (List.mem_singleton.mpr rfl))
    | tail _ h' =>
      by_cases hdv : hd v1 = true
      · rw [if_pos hdv]
        exact ih b ds k0 v0 h' hno
      · rw [if_neg hdv]
        exact ih false _ k0 v0 h' hno

/-- Helper: classification of a record whose only relevant declaration is a
user-declared conforming CodingKeys enum reduces to the Validator verdict. -/
theorem classifyRecordUserKeys (isDec : Bool) (conforms : Ty → Bool)
    (props : List StoredVar) (keyCases : List String) (cv : TargetClassView)
    (acc : Nat) (imp : Bool) :
    classifyCodingKeys isDec conforms
      (Nominal.record
        { props := props, classView := cv, access := acc,
          decls := [(Ident.codingKeys,
            NamedDecl.keyEnum { cases := keyCases, isImplicit := imp,
                                conformsCodingKey := true })] })
      = ((if (validateCodingKeysEnum isDec conforms props keyCases).1
          then Classification.valid else Classification.invalid),
         [] ++ (validateCodingKeysEnum isDec conforms props keyCases).2) := rfl

/-- C5 (confirmed): when deriving Decodable with a user-declared CodingKeys
enum, every stored member the enum does not mention must be
default-initializable or parent-initialized; otherwise validation fails with a
non-decoded-property diagnostic naming that member, and the gate produces no
witness. -/
theorem C5_non_decoded_property (conforms : Ty → Bool) (props : List StoredVar)
    (keyCases : List String) (acc : Nat) (imp : Bool) (v : StoredVar)
    (hnd : ((props.filter (fun w => w.userAccessible)).map (fun w => w.name)).Nodup)
    (hv : v ∈ props) (hua : v.userAccessible = true)
    (hnk : ∀ k ∈ keyCases, k ≠ v.name)
    (hdef : v.defaultInitializable = false) (hpi : v.parentInitialized = false)
    (hph1 : (validateCodingKeysEnum false conforms props keyCases).1 = true) :
    (validateCodingKeysEnum true conforms props keyCases).1 = false
    ∧ Diag.nonDecodedProperty v.name
        ∈ (validateCodingKeysEnum true conforms props keyCases).2
    ∧ deriveDecodable conforms
        { props := props, classView := TargetClassView.notClass, access := acc,
          decls := [(Ident.codingKeys,
            NamedDecl.keyEnum { cases := keyCases, isImplicit := imp,
                                conformsCodingKey := true })] } = none := by
  set t0 := validateKeysLoop conforms StoredVar.ty keyCases (buildPropertiesMap props) true []
    with ht0
  have ht1 : t0.1 = true := by
    unfold validateCodingKeysEnum at hph1
    rw [← ht0] at hph1
    by_cases hb : t0.1 = false
    · rw [if_pos hb] at hph1
      simp at hph1
    · rw [if_neg hb] at hph1
      simp only [Bool.false_eq_true, if_false] at hph1
      exact hph1
  have hmm : (v.name, v) ∈ buildPropertiesMap props := memBuildPropertiesMap props v hnd hv hua
  have hrem : (v.name, v) ∈ t0.2.2 := by
    rw [ht0]
    exact validateKeysLoopPreserve conforms StoredVar.ty keyCases _ true [] v.name v hmm hnk
  have hno : (v.defaultInitializable || v.parentInitialized) = false := by
    rw [hdef, hpi]
    rfl
  have hleft := leftoverOkMem (fun w => w.defaultInitializable || w.parentInitialized)
    t0.2.2 t0.1 t0.2.1 v.name v hrem hno
  have hvt : validateCodingKeysEnum true conforms props keyCases
      = leftoverOk (fun w => w.defaultInitializable || w.parentInitialized)
          t0.2.2 t0.1 t0.2.1 := by
    unfold validateCodingKeysEnum
    rw [← ht0]
    rw [if_neg (show ¬t0.1 = false by rw [ht1]; exact fun h => Bool.noConfusion h)]
    rw [if_pos rfl]
  have hfalse : (validateCodingKeysEnum true conforms props keyCases).1 = false := by
    rw [hvt]
    exact hleft.1
  refine ⟨hfalse, ?_, ?_⟩
  · rw [hvt]
    exact hleft.2
  · have hclass := classifyRecordUserKeys true conforms props keyCases
      TargetClassView.notClass acc imp
    rw [hfalse] at hclass
    simp only [Bool.false_eq_true, if_false] at hclass
    have hcan : (canSynthesize true conforms
        (Nominal.record
          { props := props, classView := TargetClassView.notClass, access := acc,
            decls := [(Ident.codingKeys,
              NamedDecl.keyEnum { cases := keyCases, isImplicit := imp,
                                  conformsCodingKey := true })] })).1 = false := by
      simp only [canSynthesize]
      rw [hclass]
      rfl
    unfold deriveDecodable
    rw [if_neg (show ¬(canSynthesize true conforms
        (Nominal.record
          { props := props, classView := TargetClassView.notClass, access := acc,
            decls := [(Ident.codingKeys,
              NamedDecl.keyEnum { cases := keyCases, isImplicit := imp,
                                  conformsCodingKey := true })] })).1 = true by
      rw [hcan]; exact fun h => Bool.noConfusion h)]

/-- C5 witness: scenario S6 — record R with fields x and y, user CodingKeys
containing only x, no default for y: validation fails, y is diagnosed, no
witness is produced. -/
theorem C5_witness :
    (validateCodingKeysEnum true (fun _ => true)
      [{ name := "x", ty := Ty.named "Int", userAccessible := true, isStatic := false,
         isLet := false, parentInitialized := false, defaultInitializable := false },
       { name := "y", ty := Ty.named "Int", userAccessible := true, isStatic := false,
         isLet := false, parentInitialized := false, defaultInitializable := false }]
      ["x"]).1 = false
    ∧ Diag.nonDecodedProperty "y"
        ∈ (validateCodingKeysEnum true (fun _ => true)
          [{ name := "x", ty := Ty.named "Int", userAccessible := true, isStatic := false,
             isLet := false, parentInitialized := false, defaultInitializable := false },
           { name := "y", ty := Ty.named "Int", userAccessible := true, isStatic := false,
             isLet := false, parentInitialized := false, defaultInitializable := false }]
          ["x"]).2
    ∧ deriveDecodable (fun _ => true)
        { props :=
            [{ name := "x", ty := Ty.named "Int", userAccessible := true, isStatic := false,
               isLet := false, parentInitialized := false, defaultInitializable := false },
             { name := "y", ty := Ty.named "Int", userAccessible := true, isStatic := false,
               isLet := false, parentInitialized := false, defaultInitializable := false }],
          classView := TargetClassView.notClass, access := 0,
          decls := [(Ident.codingKeys,
            NamedDecl.keyEnum { cases := ["x"], isImplicit := false,
                                conformsCodingKey := true })] } = none :=
  C5_non_decoded_property (fun _ => true)
    [{ name := "x", ty := Ty.named "Int", userAccessible := true, isStatic := false,
       isLet := false, parentInitialized := false, defaultInitializable := false },
     { name := "y", ty := Ty.named "Int", userAccessible := true, isStatic := false,
       isLet := false, parentInitialized := false, defaultInitializable := false }]
    ["x"] 0 false
    { name := "y", ty := Ty.named "Int", userAccessible := true, isStatic := false,
      isLet := false, parentInitialized := false, defaultInitializable := false }
    (by decide) (by decide) (by decide) (by decide) (by decide) (by decide) (by decide)

end DerivedCodable

